import Mathlib

set_option maxHeartbeats 1000000

/-! Shallow embedding of the annotation driver of pasta/base/annotate.py
(class BaseVisitor and class AstAnnotator) over a model of the external
token cursor (pasta/base/token_generator.py).  The per-method traversal
recipes embedded here are the ones the verified claims are about:
visit_Module, visit_If, visit_Name and the Python-2 form of visit_With,
together with the driver operations token, ws, attr, optional_token,
indented, check_is_elif and check_is_continued_with, the per-node property
store written through ast_utils.setprop/appendprop, the ancestor stack of
BaseVisitor.visit and the error normalization of AstAnnotator.visit.

The token cursor itself is outside the embedded source file; its state and
operations (peek, next, next_name, whitespace, block_whitespace, the
bracket hints and the parenthesized-scope counter) are modelled from the
specification's interface contract.  Whitespace/comment runs are tokens
flagged isWs; peek and next skip them, whitespace consumes them. -/

/-- One lexical token. `start` is the (row, column) position, rows 1-based
as produced by the tokenizer, `tokEnd` the end position, `line` the text of
the source line the token starts on.  Insignificant whitespace/comment runs
are tokens with `isWs := true`; name tokens carry `isName := true`. -/
structure Token where
  src : String
  isWs : Bool
  isName : Bool
  start : Nat × Nat
  tokEnd : Nat × Nat
  line : String
deriving DecidableEq, Repr

/-- Modelled from the spec: state of the external token cursor
(token_generator.TokenGenerator).  `toks` is the remaining stream, `loc`
the current location `_loc` (end of the last consumed token), `lines` the
source file split into lines, `depth` the unmatched-bracket hint counter
and `scopes` the parenthesized-scope stack depth. -/
structure TokenGen where
  toks : List Token
  loc : Nat × Nat
  lines : List String
  depth : Nat
  scopes : Nat
deriving DecidableEq, Repr

/-- Sentinel returned by peek when the stream is exhausted, mirroring the
tokenizer's end marker (empty source text). -/
def TokenGen.endmark : Token :=
  { src := "", isWs := false, isName := false,
    start := (0, 0), tokEnd := (0, 0), line := "" }

/-- Modelled from the spec: peek returns the next lexical token without
consuming, skipping insignificant whitespace runs. -/
def TokenGen.peek (tg : TokenGen) : Token :=
  match tg.toks.find? (fun t => !t.isWs) with
  | some t => t
  | none => TokenGen.endmark

/-- Modelled from the spec: next returns and consumes the next lexical
token, skipping insignificant whitespace runs. -/
def TokenGen.next (tg : TokenGen) : Token × TokenGen :=
  match tg.toks.dropWhile (fun t => t.isWs) with
  | [] => (TokenGen.endmark, { tg with toks := [] })
  | t :: ts => (t, { tg with toks := ts, loc := t.tokEnd })

/-- Modelled from the spec: next_name looks ahead to the next name token
without consuming anything (the cursor position is saved and restored). -/
def TokenGen.nextName (tg : TokenGen) : Option Token :=
  tg.toks.find? (fun t => t.isName)

/-- Number of line breaks embedded in a piece of source text. -/
def countNl (s : String) : Nat := s.data.count '\n'

/-- Does one whitespace token fit in the remaining line-break budget? -/
def budgetOk : Option Nat → Token → Bool
  | none, _ => true
  | some k, t => decide (countNl t.src ≤ k)

/-- Remaining line-break budget after consuming one whitespace token. -/
def budgetDec : Option Nat → Token → Option Nat
  | none, _ => none
  | some k, t => some (k - countNl t.src)

/-- Modelled from the spec: consume the longest run of leading
insignificant-whitespace tokens whose embedded line breaks fit in the
budget; returns the consumed text, the remaining stream and the location. -/
def wsAux : Option Nat → List Token → Nat × Nat → String × List Token × (Nat × Nat)
  | _, [], loc => ("", [], loc)
  | b, t :: ts, loc =>
    if t.isWs && budgetOk b t then
      let r := wsAux (budgetDec b t) ts t.tokEnd
      (t.src ++ r.1, r.2.1, r.2.2)
    else ("", t :: ts, loc)

/-- Modelled from the spec: whitespace(max_lines) consumes and returns a
run of insignificant whitespace with at most max_lines line breaks
(unbounded when none is given). -/
def TokenGen.whitespace (tg : TokenGen) (maxLines : Option Nat) : String × TokenGen :=
  let r := wsAux maxLines tg.toks tg.loc
  (r.1, { tg with toks := r.2.1, loc := r.2.2 })

/-- Modelled from the spec: block_whitespace(indent) consumes and returns
the trailing same-or-blank-indented material after a block's last child. -/
def TokenGen.blockWhitespace (tg : TokenGen) (_indent : String) : String × TokenGen :=
  let r := wsAux none tg.toks tg.loc
  (r.1, { tg with toks := r.2.1, loc := r.2.2 })

/-- Modelled from the spec: bracket hint recorded when an opening bracket
token is consumed (tokens.hint_open). -/
def TokenGen.hint_open (tg : TokenGen) : TokenGen := { tg with depth := tg.depth + 1 }

/-- Modelled from the spec: bracket hint recorded when a closing bracket
token is consumed (tokens.hint_closed). -/
def TokenGen.hint_closed (tg : TokenGen) : TokenGen := { tg with depth := tg.depth - 1 }

/-- One value in the per-node property store: the strings written by
setprop, the boolean decision flags, and the Python None recorded when a
dependency snapshot reads an absent field. -/
inductive PVal where
  | s (v : String)
  | b (v : Bool)
  | null
deriving DecidableEq, Repr

/-- The syntax-node fragment the verified claims range over: name
expressions, conditionals, Python-2 resource-acquisition statements (the
visit_With branch without an items field) and the module root.  `nid` is
the node's identity (Python object identity), `lineno` its 1-based source
line. -/
inductive Node where
  | name (nid : Nat) (lineno : Nat) (pyid : String)
  | ifStmt (nid : Nat) (lineno : Nat) (test : Node) (body : List Node) (orelse : List Node)
  | withStmt (nid : Nat) (lineno : Nat) (ctx : Node) (optvars : Option Node) (body : List Node)
  | module (nid : Nat) (body : List Node)

/-- Node identity. -/
def Node.nid : Node → Nat
  | .name n _ _ => n
  | .ifStmt n _ _ _ _ => n
  | .withStmt n _ _ _ _ => n
  | .module n _ => n

/-- 1-based source line of the node (module defaults to 1). -/
def Node.lineno : Node → Nat
  | .name _ l _ => l
  | .ifStmt _ l _ _ _ => l
  | .withStmt _ l _ _ _ => l
  | .module _ _ => 1

/-- isinstance(node, ast.If). -/
def Node.isIf : Node → Bool
  | .ifStmt _ _ _ _ _ => true
  | _ => false

/-- isinstance(node, ast.With). -/
def Node.isWith : Node → Bool
  | .withStmt _ _ _ _ _ => true
  | _ => false

/-- State of one annotation pass: the token cursor, the per-node property
store (node identity × name, written by ast_utils.setprop/appendprop), the
nodes' semantic string fields read by getattr for dependency snapshots, the
ancestor stack of BaseVisitor, and the indentation tracker fields _indent
and _indent_diff of AstAnnotator. -/
structure Annot where
  tg : TokenGen
  props : List ((Nat × String) × PVal)
  flds : List ((Nat × String) × String)
  stack : List Nat
  indent : String
  indent_diff : String
deriving DecidableEq, Repr

/-- Lookup in an association list keyed by (node identity, name); the most
recent write wins. -/
def plookup : List ((Nat × String) × PVal) → Nat → String → Option PVal
  | [], _, _ => none
  | e :: rest, nid, k =>
    if e.1.1 = nid ∧ e.1.2 = k then some e.2 else plookup rest nid k

/-- Lookup of a node's semantic field (getattr on the node). -/
def flookup : List ((Nat × String) × String) → Nat → String → Option String
  | [], _, _ => none
  | e :: rest, nid, k =>
    if e.1.1 = nid ∧ e.1.2 = k then some e.2 else flookup rest nid k

/-- ast_utils.setprop(node, name, value). -/
def setprop (st : Annot) (nid : Nat) (k : String) (v : PVal) : Annot :=
  { st with props := ((nid, k), v) :: st.props }

/-- The string stored under a property, or the empty default. -/
def strPropOr (st : Annot) (nid : Nat) (k : String) : String :=
  match plookup st.props nid k with
  | some (.s v) => v
  | _ => ""

/-- ast_utils.appendprop(node, name, value): concatenate onto the stored
string (empty default). -/
def appendprop (st : Annot) (nid : Nat) (k : String) (v : String) : Annot :=
  setprop st nid k (.s (strPropOr st nid k ++ v))

/-- Truthiness of a stored decision flag (ast_utils.prop / getattr with a
False default). -/
def propIsTrue (st : Annot) (nid : Nat) (k : String) : Bool :=
  match plookup st.props nid k with
  | some (.b v) => v
  | _ => false

/-- getattr(node, dep, None): the snapshot value of a semantic field. -/
def fieldPVal (st : Annot) (nid : Nat) (d : String) : PVal :=
  match flookup st.flds nid d with
  | some v => .s v
  | none => .null

/-- The failure kinds arising during annotation: the AnnotationError of
annotate.py line 1013, the lower-level cursor faults caught at line 1030,
and the AssertionError of the ancestor-stack pop (line 105), which is not
in the caught tuple. -/
inductive Err where
  | annotationError (msg : String)
  | typeError (msg : String)
  | valueError (msg : String)
  | indexError (msg : String)
  | keyError (msg : String)
  | assertionError
deriving DecidableEq, Repr

/-- The except clause of AstAnnotator.visit (lines 1030-1031): TypeError,
ValueError, IndexError and KeyError are re-raised as AnnotationError(e);
AnnotationError itself and AssertionError are not in the tuple and
propagate unchanged. -/
def normalizeErr : Err → Err
  | .typeError m => .annotationError m
  | .valueError m => .annotationError m
  | .indexError m => .annotationError m
  | .keyError m => .annotationError m
  | .annotationError m => .annotationError m
  | .assertionError => .assertionError

/-- Bool-valued infix test on character lists. -/
def listIsInfix (a : List Char) : List Char → Bool
  | [] => a.isEmpty
  | c :: rest => a.isPrefixOf (c :: rest) || listIsInfix a rest

/-- Python substring membership, for `token.src in '({['`. -/
def pyIn (sub big : String) : Bool := listIsInfix sub.data big.data

/-- Python str.startswith. -/
def pyStartsWith (s pre : String) : Bool := pre.data.isPrefixOf s.data

/-- Python slice s[k:] by characters. -/
def strDropChars (s : String) (k : Nat) : String := String.mk (s.data.drop k)

/-- itertools.takewhile(lambda c: c in ' \t', line): the raw leading
whitespace of a source line. -/
def pyTakeIndent (lineText : String) : String :=
  String.mk (lineText.data.takeWhile (fun c => c == ' ' || c == '\t'))

/-- The %r quoting used in the token-mismatch message. -/
def pyRepr (s : String) : String := "'" ++ s ++ "'"

/-- The message format of annotate.py lines 1109-1110: it is built from
the expected text, the actual text, the token's (1-based) start row and
the token's line text -- and from nothing else. -/
def tokenErrMsg (expected actual : String) (row : Nat) (lineText : String) : String :=
  "Expected " ++ pyRepr expected ++ " but found " ++ pyRepr actual ++
    "\nline " ++ toString row ++ ": " ++ lineText

/-- AstAnnotator.token (lines 1105-1118): consume the next token; raise
AnnotationError on text mismatch; record bracket hints for bracket
tokens. -/
def token (tokenVal : String) (st : Annot) : Except Err (String × Annot) :=
  let r := TokenGen.next st.tg
  if r.1.src = tokenVal then
    let tg2 :=
      if pyIn r.1.src "(\x7b[" then TokenGen.hint_open r.2
      else if pyIn r.1.src ")\x7d]" then TokenGen.hint_closed r.2
      else r.2
    .ok (r.1.src, { st with tg := tg2 })
  else
    .error (.annotationError (tokenErrMsg tokenVal r.1.src r.1.start.1 r.1.line))

/-- AstAnnotator.ws (lines 1101-1103): parse whitespace and return it. -/
def ws (maxLines : Option Nat) (st : Annot) : String × Annot :=
  let r := TokenGen.whitespace st.tg maxLines
  (r.1, { st with tg := r.2 })

/-- One item of an attr_vals list: a literal token to match exactly, or a
whitespace parser with a line cap (self.ws / self.ws_oneline). -/
inductive AttrVal where
  | lit (s : String)
  | wsMax (maxLines : Option Nat)
deriving DecidableEq, Repr

/-- The part-parsing loop of AstAnnotator.attr: strings are matched as
tokens, functions parse whitespace; the results are concatenated. -/
def runAttrVals : List AttrVal → Annot → Except Err (String × Annot)
  | [], st => .ok ("", st)
  | .lit s :: vs, st =>
    match token s st with
    | .error e => .error e
    | .ok r =>
      match runAttrVals vs r.2 with
      | .error e => .error e
      | .ok r2 => .ok (r.1 ++ r2.1, r2.2)
  | .wsMax m :: vs, st =>
    let r := ws m st
    match runAttrVals vs r.2 with
    | .error e => .error e
    | .ok r2 => .ok (r.1 ++ r2.1, r2.2)

/-- The dependency-snapshot loop of AstAnnotator.attr (lines 1160-1162):
for each dep, setprop(node, dep + '__src', getattr(node, dep, None)). -/
def snapshotDeps (nid : Nat) (deps : List String) (st : Annot) : Annot :=
  deps.foldl (fun s d => setprop s nid (d ++ "__src") (fieldPVal s nid d)) st

/-- AstAnnotator.attr (lines 1127-1169): snapshot the dependencies, parse
the attr_vals parts, and store their concatenation under attr_name.  The
default argument is deleted unused in the source and is omitted here. -/
def attr (nid : Nat) (attrName : String) (attrVals : List AttrVal)
    (deps : List String) (st : Annot) : Except Err Annot :=
  let st0 := snapshotDeps nid deps st
  match runAttrVals attrVals st0 with
  | .error e => .error e
  | .ok r => .ok (setprop r.2 nid attrName (.s r.1))

/-- AstAnnotator.optional_token (lines 1120-1125): peek for the literal;
if present consume it and append it (with trailing whitespace) to the
attribute; otherwise do nothing.  In the model peek returns the end
sentinel at end of input; its empty src never equals a real token value. -/
def optional_token (nid : Nat) (attrName : String) (tokenVal : String)
    (st : Annot) : Except Err Annot :=
  let tok := TokenGen.peek st.tg
  if tok.src = tokenVal then
    let st1 := { st with tg := (TokenGen.next st.tg).2 }
    let r := ws none st1
    .ok (appendprop r.2 nid attrName (tok.src ++ r.1))
  else
    .ok st

/-- AstAnnotator.check_is_elif (lines 1092-1095): isinstance(node, ast.If)
and the next name token reads elif.  tokens.next_name is modelled from the
spec as a non-consuming lookahead; when no name token remains the check is
false. -/
def check_is_elif (st : Annot) (n : Node) : Bool :=
  match TokenGen.nextName st.tg with
  | some nextTok => Node.isIf n && nextTok.src == "elif"
  | none => false

/-- AstAnnotator.check_is_continued_with (lines 1097-1099):
isinstance(node, ast.With) and the peeked next token is a comma. -/
def check_is_continued_with (st : Annot) (n : Node) : Bool :=
  Node.isWith n && (TokenGen.peek st.tg).src == ","

/-- tokens.scope entry, modelled from the spec as pushing the
parenthesized-scope stack. -/
def scopeOpen (st : Annot) : Annot :=
  { st with tg := { st.tg with scopes := st.tg.scopes + 1 } }

/-- tokens.scope exit, modelled from the spec as popping the
parenthesized-scope stack. -/
def scopeClose (st : Annot) : Annot :=
  { st with tg := { st.tg with scopes := st.tg.scopes - 1 } }

/-- BaseVisitor.prefix (lines 107-109): attr(node, 'prefix', [self.ws]). -/
def prefixWs (nid : Nat) (st : Annot) : Except Err Annot :=
  attr nid "prefix" [.wsMax none] [] st

/-- BaseVisitor.suffix (lines 111-113): attr(node, 'suffix', [ws capped]). -/
def suffixWs (nid : Nat) (maxLines : Option Nat) (st : Annot) : Except Err Annot :=
  attr nid "suffix" [.wsMax maxLines] [] st

/-- Visit a list of children in order, threading the state (the caller's
for-loop over child statements). -/
def seqVisit (visitF : Node → Annot → Except Err Annot) :
    List Node → Annot → Except Err Annot
  | [], st => .ok st
  | c :: cs, st =>
    match visitF c st with
    | .error e => .error e
    | .ok st' => seqVisit visitF cs st'

/-- The message of annotate.py lines 1052-1053. -/
def indentFailMsg : String :=
  "Indent detection failed; inner indentation level is not more than the outer indentation."

/-- The special case of AstAnnotator.indented (lines 1038-1042): a single
child starting on the same source line as the block header. -/
def sameLineGuard (children : List Node) (st : Annot) : Bool :=
  children.length == 1 && st.tg.loc.1 == (TokenGen.peek st.tg).start.1

/-- AstAnnotator.indented (lines 1033-1066), with the caller's for-loop
over the yielded children inlined: on the same-line special case just
visit the single child; otherwise read the raw leading whitespace of the
first child's line as the new indent, reject unless it strictly extends
the enclosing indent, visit the children at the new indent, store the
block suffix, and restore the previous indent.  Out-of-range indexing
(children[0], lines[lineno - 1]) is the Python IndexError. -/
def indented (visitF : Node → Annot → Except Err Annot) (nid : Nat)
    (childrenAttr : String) (children : List Node) (st : Annot) :
    Except Err Annot :=
  if sameLineGuard children st then
    match children with
    | c :: _ => visitF c st
    | [] => .error (.indexError "list index out of range")
  else
    match children with
    | [] => .error (.indexError "list index out of range")
    | c0 :: _ =>
      match st.tg.lines.get? (c0.lineno - 1) with
      | none => .error (.indexError "list index out of range")
      | some lineText =>
        let prevIndent := st.indent
        let prevDiff := st.indent_diff
        let newIndent := pyTakeIndent lineText
        if pyStartsWith newIndent prevIndent = false ∨
            newIndent.data.length ≤ prevIndent.data.length then
          .error (.annotationError indentFailMsg)
        else
          let st1 := { st with indent := newIndent,
                               indent_diff := strDropChars newIndent prevIndent.data.length }
          match seqVisit visitF children st1 with
          | .error e => .error e
          | .ok st2 =>
            let r := TokenGen.blockWhitespace st2.tg st2.indent
            let st3 := setprop { st2 with tg := r.2 } nid
                ("block_suffix_" ++ childrenAttr) (.s r.1)
            .ok { st3 with indent := prevIndent, indent_diff := prevDiff }

/-- visit_Name (lines 722-724) under the expression wrapper (lines 37-57):
scope entry, prefix, the name token, suffix capped at zero lines, scope
exit. -/
def visitName (pyid : String) (nid : Nat) (st : Annot) : Except Err Annot :=
  let st0 := scopeOpen st
  match prefixWs nid st0 with
  | .error e => .error e
  | .ok st1 =>
    match token pyid st1 with
    | .error e => .error e
    | .ok r =>
      match suffixWs nid (some 0) r.2 with
      | .error e => .error e
      | .ok st3 => .ok (scopeClose st3)

/-- visit_If (lines 154-176) under the block_statement wrapper: prefix,
the if/elif keyword chosen from the cached is_elif flag, the test, the
open_block attribute, the indented body, then either the chained-elif
branch (flag the nested If and visit it) or the ordinary else branch. -/
def visitIf (visitF : Node → Annot → Except Err Annot) (nid : Nat)
    (test : Node) (body orelse : List Node) (st : Annot) : Except Err Annot :=
  match prefixWs nid st with
  | .error e => .error e
  | .ok st1 =>
    let tokv := if propIsTrue st1 nid "is_elif" then "elif" else "if"
    match attr nid "open_if" [.lit tokv, .wsMax none] [] st1 with
    | .error e => .error e
    | .ok st2 =>
      match visitF test st2 with
      | .error e => .error e
      | .ok st3 =>
        match attr nid "open_block" [.wsMax none, .lit ":", .wsMax (some 1)] [] st3 with
        | .error e => .error e
        | .ok st4 =>
          match indented visitF nid "body" body st4 with
          | .error e => .error e
          | .ok st5 =>
            match orelse with
            | [] => .ok st5
            | e0 :: _ =>
              if orelse.length = 1 ∧ Node.isIf e0 = true ∧ check_is_elif st5 e0 = true then
                visitF e0 (setprop st5 e0.nid "is_elif" (.b true))
              else
                match attr nid "elseprefix" [.wsMax none] [] st5 with
                | .error e => .error e
                | .ok st6 =>
                  match token "else" st6 with
                  | .error e => .error e
                  | .ok r7 =>
                    match attr nid "open_else" [.wsMax none, .lit ":", .wsMax (some 1)] [] r7.2 with
                    | .error e => .error e
                    | .ok st8 => indented visitF nid "orelse" orelse st8

/-- visit_With lines 236-237: the opening with keyword is consumed unless
the node was flagged is_continued by its parent.  The raw is_continued
attribute is modelled in the same per-node store as the cached props. -/
def withKeyword (nid : Nat) (st : Annot) : Except Err Annot :=
  if propIsTrue st nid "is_continued" = false then
    attr nid "with" [.lit "with", .wsMax none] [] st
  else .ok st

/-- visit_With lines 243-248: when the body is a single node for which
check_is_continued_with holds, flag it is_continued and record the
with_comma attribute; otherwise record the ordinary open_block attribute. -/
def withOpenOrComma (nid : Nat) (body : List Node) (st : Annot) : Except Err Annot :=
  match body with
  | [b] =>
    if check_is_continued_with st b then
      attr nid "with_comma" [.wsMax none, .lit ",", .wsMax none] []
        (setprop st b.nid "is_continued" (.b true))
    else
      attr nid "open_block" [.wsMax none, .lit ":", .wsMax (some 1)] [] st
  | _ => attr nid "open_block" [.wsMax none, .lit ":", .wsMax (some 1)] [] st

/-- visit_With (lines 232-250), Python-2 form (no items field), under the
block_statement wrapper: prefix, the optional with keyword, the context
expression, the optional as-clause, the continued-with decision, and the
indented body. -/
def visitWith (visitF : Node → Annot → Except Err Annot) (nid : Nat)
    (ctx : Node) (optvars : Option Node) (body : List Node) (st : Annot) :
    Except Err Annot :=
  match prefixWs nid st with
  | .error e => .error e
  | .ok st1 =>
    match withKeyword nid st1 with
    | .error e => .error e
    | .ok st2 =>
      match visitF ctx st2 with
      | .error e => .error e
      | .ok st3 =>
        let r4 : Except Err Annot :=
          match optvars with
          | none => .ok st3
          | some v =>
            match attr nid "with_as" [.wsMax none, .lit "as", .wsMax none] [] st3 with
            | .error e => .error e
            | .ok st3a => visitF v st3a
        match r4 with
        | .error e => .error e
        | .ok st4 =>
          match withOpenOrComma nid body st4 with
          | .error e => .error e
          | .ok st5 => indented visitF nid "body" body st5

/-- visit_Module (lines 149-152) under the block_statement wrapper:
prefix, generic_visit over the body, then the trailing suffix. -/
def visitModule (visitF : Node → Annot → Except Err Annot) (nid : Nat)
    (body : List Node) (st : Annot) : Except Err Annot :=
  match prefixWs nid st with
  | .error e => .error e
  | .ok st1 =>
    match seqVisit visitF body st1 with
    | .error e => .error e
    | .ok st2 => attr nid "suffix" [.wsMax none] [] st2

/-- Dispatch-by-kind over the embedded visit methods. -/
def visitDispatch (visitF : Node → Annot → Except Err Annot) :
    Node → Annot → Except Err Annot
  | .name nid _ pyid, st => visitName pyid nid st
  | .ifStmt nid _ t b o, st => visitIf visitF nid t b o st
  | .withStmt nid _ c ov b, st => visitWith visitF nid c ov b st
  | .module nid b, st => visitModule visitF nid b st

/-- The first two statements of AstAnnotator.visit (lines 1027-1028):
setprop(node, 'indent', self._indent); setprop(node, 'indent_diff',
self._indent_diff). -/
def setIndentProps (n : Node) (st : Annot) : Annot :=
  setprop (setprop st n.nid "indent" (.s st.indent)) n.nid "indent_diff" (.s st.indent_diff)

/-- BaseVisitor.visit line 102: push the node on the ancestor stack. -/
def pushStack (n : Node) (st : Annot) : Annot :=
  { st with stack := n.nid :: st.stack }

/-- BaseVisitor.visit line 105: assert node is self._stack.pop(). -/
def popAssert (n : Node) (st : Annot) : Except Err Annot :=
  match st.stack with
  | [] => .error .assertionError
  | m :: rest => if m = n.nid then .ok { st with stack := rest } else .error .assertionError

/-- One level of AstAnnotator.visit (lines 1025-1031) over
BaseVisitor.visit (lines 101-105): set the indent props, push the node,
dispatch, pop with the identity assertion, and normalize any failure
through the except clause. -/
def visitGo (rec : Node → Annot → Except Err Annot) (n : Node) (st : Annot) :
    Except Err Annot :=
  let r : Except Err Annot :=
    match visitDispatch rec n (pushStack n (setIndentProps n st)) with
    | .error e => .error e
    | .ok st3 => popAssert n st3
  match r with
  | .error e => .error (normalizeErr e)
  | .ok st4 => .ok st4

/-- The recursive annotation driver, with a fuel bound on nesting depth
standing in for Python's recursion limit. -/
def visit : Nat → Node → Annot → Except Err Annot
  | 0 => fun _ _ => .error (.annotationError "maximum recursion depth exceeded")
  | fuel + 1 => fun n st => visitGo (visit fuel) n st

/-- Identities of an optional child node. -/
def optIds (idsOf : Node → List Nat) : Option Node → List Nat
  | some v => idsOf v
  | none => []

/-- Identities of the components of a node (the targets, other than the
node itself, that one dispatch level may write props for). -/
def kindIds (idsOf : Node → List Nat) : Node → List Nat
  | .name _ _ _ => []
  | .ifStmt _ _ t b o => idsOf t ++ ((b.map idsOf).flatten ++ (o.map idsOf).flatten)
  | .withStmt _ _ c ov b => idsOf c ++ (optIds idsOf ov ++ (b.map idsOf).flatten)
  | .module _ b => (b.map idsOf).flatten

/-- Identities in a subtree, cut off at the given depth. -/
def nodeIdsF : Nat → Node → List Nat
  | 0 => fun _ => []
  | fuel + 1 => fun n => Node.nid n :: kindIds (nodeIdsF fuel) n

/-- Whether an annotation result is a success. -/
def exceptIsOk : Except Err Annot → Bool
  | .ok _ => true
  | .error _ => false

/-- A token fixture with the end column computed from the text length. -/
def fixTok (s : String) (row col : Nat) (lineText : String) : Token :=
  { src := s, isWs := false, isName := false, start := (row, col),
    tokEnd := (row, col + s.data.length), line := lineText }

/-- A whitespace-run token fixture. -/
def fixWs (s : String) (row col erow ecol : Nat) : Token :=
  { src := s, isWs := true, isName := false, start := (row, col),
    tokEnd := (erow, ecol), line := "" }

/-- A name-token fixture. -/
def fixName (s : String) (row col : Nat) (lineText : String) : Token :=
  { fixTok s row col lineText with isName := true }

/-- A fresh annotation state over the given token stream and lines. -/
def fixSt (toks : List Token) (lines : List String) : Annot :=
  { tg := { toks := toks, loc := (1, 0), lines := lines, depth := 0, scopes := 0 },
    props := [], flds := [], stack := [], indent := "", indent_diff := "" }

/-- A child visitor that consumes nothing, for instantiating the
higher-order indented traversal in concrete checks. -/
def idVisit : Node → Annot → Except Err Annot := fun _ st => .ok st

/-- Mismatch fixture: the next token reads y at line 3, column 0. -/
def c2StA : Annot :=
  fixSt [fixName "y" 3 0 "y z"] ["", "", "y z"]

/-- Mismatch fixture differing from c2StA only in the token's column. -/
def c2StB : Annot :=
  fixSt [{ fixName "y" 3 0 "y z" with start := (3, 7) }] ["", "", "y z"]

/-- Indentation-violation fixture: enclosing indent two spaces, body line
unindented, first child on the line after the cursor. -/
def c1St : Annot :=
  { fixSt [fixWs "\n" 1 5 1 6, fixName "y" 2 0 "y = 1"] ["if x:", "y = 1"]
      with indent := "  " }

/-- Child list for the indentation-violation fixture. -/
def c1Child : Node := .name 10 2 "y"

/-- Same-line fixture: cursor at the colon of a one-line block, single
child on the same row. -/
def c10St : Annot :=
  { fixSt [fixWs " " 1 5 1 6, fixName "y" 1 6 "if x: y"] ["if x: y"]
      with tg := { toks := [fixWs " " 1 5 1 6, fixName "y" 1 6 "if x: y"],
                   loc := (1, 5), lines := ["if x: y"], depth := 0, scopes := 0 } }

/-- Child for the same-line fixture. -/
def c10Child : Node := .name 11 1 "y"

/-- Fixture whose next name token reads elif. -/
def c3St : Annot := fixSt [fixName "elif" 3 0 "elif b:"] ["", "", "elif b:"]

/-- A conditional node for the resolver fixtures. -/
def c3N : Node := .ifStmt 20 1 (.name 21 1 "x") [] []

/-- Continued-with fixture: the peeked token is a comma. -/
def c4St : Annot :=
  fixSt [fixTok "," 1 6 "with a, b: y", fixWs " " 1 7 1 8,
         fixName "b" 1 8 "with a, b: y"] ["with a, b: y"]

/-- The nested With node of the continued-with fixture. -/
def c4B : Node := .withStmt 31 1 (.name 32 1 "b") none [.name 33 1 "y"]

/-- Nested-block fixture: the peeked token is a colon. -/
def c4StColon : Annot :=
  fixSt [fixTok ":" 1 6 "with a:", fixWs "\n  " 1 7 1 8] ["with a:"]

/-- State whose node 50 carries a semantic field n = 42. -/
def c7St : Annot := { fixSt [] [] with flds := [((50, "n"), "42")] }

/-- Optional-token-absent fixture: the peeked token reads x. -/
def c8StAbsent : Annot := fixSt [fixTok "x" 1 0 "x"] ["x"]

/-- Optional-token-present fixture: the peeked token is a comma. -/
def c8StPresent : Annot := fixSt [fixTok "," 1 0 ", )", fixWs " " 1 1 1 2] [", )"]

/-- Frame relation between two annotation states: the ancestor stack is
unchanged and only props of nodes in the given identity set differ. -/
def PFrame (ids : List Nat) (a b : Annot) : Prop :=
  b.stack = a.stack ∧
  ∀ id k, plookup b.props id k ≠ plookup a.props id k → id ∈ ids

/-- Postcondition bundle for one visit function: success preserves the
ancestor stack and writes only props of nodes in the subtree identity
set; failure is the single annotation-failure kind. -/
def VisitNice (idsOf : Node → List Nat) (visitF : Node → Annot → Except Err Annot) : Prop :=
  ∀ c st, match visitF c st with
    | .ok st' => PFrame (idsOf c) st st'
    | .error e => ∃ m, e = .annotationError m

/-- A visit function that can succeed on a node has that node in its own
identity set. -/
def SelfIds (idsOf : Node → List Nat) (visitF : Node → Annot → Except Err Annot) : Prop :=
  ∀ c s s', visitF c s = .ok s' → Node.nid c ∈ idsOf c

/-! Basic lemmas about the property store and the cursor operations. -/

theorem plookup_setprop_self (st : Annot) (nid : Nat) (k : String) (v : PVal) :
    plookup (setprop st nid k v).props nid k = some v := by
  simp [setprop, plookup]

theorem plookup_setprop_ne (st : Annot) (nid : Nat) (k : String) (v : PVal)
    (id : Nat) (k' : String) (h : ¬ (id = nid ∧ k' = k)) :
    plookup (setprop st nid k v).props id k' = plookup st.props id k' := by
  simp only [setprop, plookup]
  rw [if_neg]
  intro hc
  exact h ⟨hc.1.symm, hc.2.symm⟩

theorem next_fst_eq_peek (tg : TokenGen) : (TokenGen.next tg).1 = TokenGen.peek tg := by
  simp only [TokenGen.next, TokenGen.peek]
  induction tg.toks with
  | nil => rfl
  | cons t ts ih =>
    by_cases hw : t.isWs
    · simpa [List.dropWhile_cons, List.find?, hw] using ih
    · simp [List.dropWhile_cons, List.find?, hw]

theorem token_ok_fields (v : String) (st : Annot) (s : String) (st' : Annot)
    (h : token v st = .ok (s, st')) :
    st'.props = st.props ∧ st'.flds = st.flds ∧ st'.stack = st.stack ∧
    st'.indent = st.indent ∧ st'.indent_diff = st.indent_diff := by
  simp only [token] at h
  split at h
  · simp only [Except.ok.injEq, Prod.mk.injEq] at h
    obtain ⟨-, h2⟩ := h
    subst h2
    split <;> simp [TokenGen.hint_open, TokenGen.hint_closed]
  · simp at h

theorem token_err (v : String) (st : Annot) (e : Err)
    (h : token v st = .error e) : ∃ m, e = .annotationError m := by
  simp only [token] at h
  split at h
  · simp at h
  · simp only [Except.error.injEq] at h
    exact ⟨_, h.symm⟩

theorem ws_snd_fields (m : Option Nat) (st : Annot) :
    (ws m st).2.props = st.props ∧ (ws m st).2.flds = st.flds ∧
    (ws m st).2.stack = st.stack ∧ (ws m st).2.indent = st.indent ∧
    (ws m st).2.indent_diff = st.indent_diff := by
  simp [ws]
theorem rav_ok_fields (vs : List AttrVal) (st : Annot) (s : String) (st' : Annot)
    (h : runAttrVals vs st = .ok (s, st')) :
    st'.props = st.props ∧ st'.flds = st.flds ∧ st'.stack = st.stack ∧
    st'.indent = st.indent ∧ st'.indent_diff = st.indent_diff := by
  induction vs generalizing st s with
  | nil =>
    simp only [runAttrVals, Except.ok.injEq, Prod.mk.injEq] at h
    obtain ⟨-, h2⟩ := h
    subst h2
    exact ⟨rfl, rfl, rfl, rfl, rfl⟩
  | cons v vs ih =>
    cases v with
    | lit x =>
      simp only [runAttrVals] at h
      split at h
      · simp at h
      · rename_i r heq
        split at h
        · simp at h
        · rename_i r2 heq2
          simp only [Except.ok.injEq, Prod.mk.injEq] at h
          obtain ⟨-, h2⟩ := h
          subst h2
          have hTok := token_ok_fields x st r.1 r.2 (by rw [heq])
          have hIh := ih r.2 r2.1 (by rw [heq2])
          exact ⟨hIh.1.trans hTok.1, hIh.2.1.trans hTok.2.1, hIh.2.2.1.trans hTok.2.2.1,
                 hIh.2.2.2.1.trans hTok.2.2.2.1, hIh.2.2.2.2.trans hTok.2.2.2.2⟩
    | wsMax m =>
      simp only [runAttrVals] at h
      split at h
      · simp at h
      · rename_i r2 heq2
        simp only [Except.ok.injEq, Prod.mk.injEq] at h
        obtain ⟨-, h2⟩ := h
        subst h2
        have hWs := ws_snd_fields m st
        have hIh := ih (ws m st).2 r2.1 (by rw [heq2])
        exact ⟨hIh.1.trans hWs.1, hIh.2.1.trans hWs.2.1, hIh.2.2.1.trans hWs.2.2.1,
               hIh.2.2.2.1.trans hWs.2.2.2.1, hIh.2.2.2.2.trans hWs.2.2.2.2⟩

theorem rav_err (vs : List AttrVal) (st : Annot) (e : Err)
    (h : runAttrVals vs st = .error e) : ∃ m, e = .annotationError m := by
  induction vs generalizing st with
  | nil => simp [runAttrVals] at h
  | cons v vs ih =>
    cases v with
    | lit x =>
      simp only [runAttrVals] at h
      split at h
      · rename_i e' heq
        simp only [Except.error.injEq] at h
        subst h
        exact token_err x st _ heq
      · rename_i r heq
        split at h
        · rename_i e' heq2
          simp only [Except.error.injEq] at h
          subst h
          exact ih r.2 heq2
        · simp at h
    | wsMax m =>
      simp only [runAttrVals] at h
      split at h
      · rename_i e' heq2
        simp only [Except.error.injEq] at h
        subst h
        exact ih (ws m st).2 heq2
      · simp at h

theorem snapTrivial (nid : Nat) (st : Annot) : snapshotDeps nid [] st = st := rfl

theorem attr0_ok (nid : Nat) (name : String) (vals : List AttrVal) (st st' : Annot)
    (h : attr nid name vals [] st = .ok st') :
    st'.flds = st.flds ∧ st'.stack = st.stack ∧
    st'.indent = st.indent ∧ st'.indent_diff = st.indent_diff ∧
    (∀ id k, ¬ (id = nid ∧ k = name) → plookup st'.props id k = plookup st.props id k) ∧
    (∃ txt, plookup st'.props nid name = some (.s txt)) := by
  simp only [attr, snapTrivial] at h
  split at h
  · simp at h
  · rename_i r heq
    simp only [Except.ok.injEq] at h
    subst h
    have hr := rav_ok_fields vals st r.1 r.2 (by rw [heq])
    refine ⟨hr.2.1, hr.2.2.1, hr.2.2.2.1, hr.2.2.2.2, ?_, ?_⟩
    · intro id k hk
      rw [plookup_setprop_ne _ _ _ _ _ _ hk, hr.1]
    · exact ⟨r.1, plookup_setprop_self _ _ _ _⟩

theorem attr_err (nid : Nat) (name : String) (vals : List AttrVal)
    (deps : List String) (st : Annot) (e : Err)
    (h : attr nid name vals deps st = .error e) : ∃ m, e = .annotationError m := by
  simp only [attr] at h
  split at h
  · rename_i e' heq
    simp only [Except.error.injEq] at h
    subst h
    exact rav_err vals _ _ heq
  · simp at h

/-! Claim-facing theorems for the leaf driver operations. -/

/-- C10: when a block's child list is a single statement beginning on the
same source line as the block header, the indented traversal reduces to
just visiting that child: the indentation fields are untouched, no
strict-growth validation runs, and no block-suffix attribute is stored. -/
theorem claim_C10 (visitF : Node → Annot → Except Err Annot) (nid : Nat)
    (cAttr : String) (c : Node) (st : Annot)
    (h : sameLineGuard [c] st = true) :
    indented visitF nid cAttr [c] st = visitF c st := by
  simp [indented, h]

/-- C10 witness: the guard holds on the one-line-block fixture and the
traversal there is exactly the child visit. -/
theorem claim_C10_witness :
    sameLineGuard [c10Child] c10St = true ∧
    indented idVisit 1 "body" [c10Child] c10St = idVisit c10Child c10St :=
  ⟨by decide, claim_C10 idVisit 1 "body" c10Child c10St (by decide)⟩

/-- C3: the two ambiguity resolvers are deterministic functions of the
node shape and the cursor lookahead alone: states agreeing on the
lookahead and nodes agreeing on their kind yield identical decisions.
Both resolvers return a plain value without a successor state, so neither
advances the token cursor; the decision flag is cached by their callers
(visit_If / visit_With), not by the resolvers. -/
theorem claim_C3 (st1 st2 : Annot) (n1 n2 : Node)
    (hn : TokenGen.nextName st1.tg = TokenGen.nextName st2.tg)
    (hp : TokenGen.peek st1.tg = TokenGen.peek st2.tg)
    (hif : Node.isIf n1 = Node.isIf n2)
    (hwith : Node.isWith n1 = Node.isWith n2) :
    check_is_elif st1 n1 = check_is_elif st2 n2 ∧
    check_is_continued_with st1 n1 = check_is_continued_with st2 n2 := by
  constructor
  · simp only [check_is_elif, hn, hif]
  · simp only [check_is_continued_with, hp, hwith]

/-- C3 witness: the resolver determinism applied at the elif fixture. -/
theorem claim_C3_witness :
    TokenGen.nextName c3St.tg = TokenGen.nextName c3St.tg ∧
    Node.isIf c3N = Node.isIf c3N ∧
    check_is_elif c3St c3N = check_is_elif c3St c3N ∧
    check_is_continued_with c3St c3N = check_is_continued_with c3St c3N :=
  ⟨rfl, rfl, (claim_C3 c3St c3St c3N c3N rfl rfl rfl rfl).1,
    (claim_C3 c3St c3St c3N c3N rfl rfl rfl rfl).2⟩

/-- C2 counterexample: the token-mismatch failure does not carry the
source column.  Two states whose next tokens differ only in their start
column produce literally identical annotation failures, so the failure
cannot encode the column; it carries the expected text, actual text, line
number and line text only. -/
theorem claim_C2_counterexample :
    token "x" c2StA = token "x" c2StB ∧
    token "x" c2StA = .error (.annotationError (tokenErrMsg "x" "y" 3 "y z")) ∧
    (TokenGen.next c2StA.tg).1.start.2 ≠ (TokenGen.next c2StB.tg).1.start.2 := by
  refine ⟨rfl, rfl, by decide⟩

/-- C2 (amended): when the next token's text differs from the expected
text, annotation fails with an AnnotationError built from exactly the
expected text, the actual text, the token's 1-based source line number,
and the text of that line (the column is not part of the message). -/
theorem claim_C2 (tokenVal : String) (st : Annot)
    (h : (TokenGen.next st.tg).1.src ≠ tokenVal) :
    token tokenVal st = .error (.annotationError
      (tokenErrMsg tokenVal (TokenGen.next st.tg).1.src
        (TokenGen.next st.tg).1.start.1 (TokenGen.next st.tg).1.line)) := by
  simp only [token]
  rw [if_neg h]

/-- C2 witness: the mismatch theorem applied at the fixture where x is
expected but y is found at line 3. -/
theorem claim_C2_witness :
    (TokenGen.next c2StA.tg).1.src ≠ "x" ∧
    token "x" c2StA = .error (.annotationError
      (tokenErrMsg "x" (TokenGen.next c2StA.tg).1.src
        (TokenGen.next c2StA.tg).1.start.1 (TokenGen.next c2StA.tg).1.line)) :=
  ⟨by decide, claim_C2 "x" c2StA (by decide)⟩

theorem wsAux_len (b : Option Nat) (l : List Token) (loc : Nat × Nat) :
    (wsAux b l loc).2.1.length ≤ l.length := by
  induction l generalizing b loc with
  | nil => simp [wsAux]
  | cons t ts ih =>
    simp only [wsAux]
    split
    · exact le_trans (ih _ _) (Nat.le_succ _)
    · simp

theorem length_dropWhileWs_le (l : List Token) :
    (l.dropWhile (fun t => t.isWs)).length ≤ l.length := by
  induction l with
  | nil => simp
  | cons t ts ih =>
    by_cases hw : t.isWs
    · simp only [List.dropWhile_cons, hw, if_true, List.length_cons]
      exact le_trans ih (Nat.le_succ _)
    · simp [List.dropWhile_cons, hw]

theorem dropWhile_cons_of_ne_endmark (tg : TokenGen)
    (h : (TokenGen.peek tg).src ≠ "") :
    ∃ t ts, tg.toks.dropWhile (fun t => t.isWs) = t :: ts := by
  cases hd : tg.toks.dropWhile (fun t => t.isWs) with
  | nil =>
    exfalso
    apply h
    have hnp := next_fst_eq_peek tg
    simp only [TokenGen.next, hd] at hnp
    rw [← hnp]
    rfl
  | cons t ts => exact ⟨t, ts, rfl⟩

theorem strPropOr_congr (a b : Annot) (nid : Nat) (k : String)
    (h : a.props = b.props) : strPropOr a nid k = strPropOr b nid k := by
  simp only [strPropOr, h]

/-- C8: the optional-token slot detects the literal by a non-consuming
lookahead.  If the peeked token differs, the state is returned entirely
unchanged: no token consumed, no attribute change, no failure.  If it
matches, the token is consumed (the stream strictly shrinks) and the
token text with its trailing whitespace is appended to the node's
attribute. -/
theorem claim_C8 (nid : Nat) (attrName tokenVal : String) (st : Annot) :
    ((TokenGen.peek st.tg).src ≠ tokenVal →
      optional_token nid attrName tokenVal st = .ok st) ∧
    ((TokenGen.peek st.tg).src = tokenVal → tokenVal ≠ "" →
      ∃ wsS st', optional_token nid attrName tokenVal st = .ok st' ∧
        plookup st'.props nid attrName =
          some (.s (strPropOr st nid attrName ++ (tokenVal ++ wsS))) ∧
        st'.tg.toks.length < st.tg.toks.length ∧
        st'.stack = st.stack ∧ st'.indent = st.indent ∧
        st'.indent_diff = st.indent_diff) := by
  constructor
  · intro h
    simp only [optional_token]
    rw [if_neg h]
  · intro h h0
    obtain ⟨t, ts, hd⟩ := dropWhile_cons_of_ne_endmark st.tg (by rw [h]; exact h0)
    simp only [optional_token]
    rw [if_pos h]
    refine ⟨(ws none { st with tg := (TokenGen.next st.tg).2 }).1, _, rfl, ?_, ?_, ?_, ?_, ?_⟩
    · rw [appendprop, h]
      rw [plookup_setprop_self]
      have hpr : (ws none { st with tg := (TokenGen.next st.tg).2 }).2.props = st.props :=
        (ws_snd_fields none _).1
      rw [strPropOr_congr _ st _ _ hpr]
    · show ((ws none { st with tg := (TokenGen.next st.tg).2 }).2.tg).toks.length < _
      have h1 : (TokenGen.next st.tg).2.toks = ts := by
        simp only [TokenGen.next, hd]
      have h2 : ts.length < st.tg.toks.length := by
        have hle : (st.tg.toks.dropWhile (fun t => t.isWs)).length ≤ st.tg.toks.length :=
          length_dropWhileWs_le _
        rw [hd, List.length_cons] at hle
        omega
      calc ((ws none { st with tg := (TokenGen.next st.tg).2 }).2.tg).toks.length
          ≤ (TokenGen.next st.tg).2.toks.length := by
            simp only [ws, TokenGen.whitespace]
            exact wsAux_len _ _ _
        _ = ts.length := by rw [h1]
        _ < st.tg.toks.length := h2
    · exact (ws_snd_fields none _).2.2.1
    · exact (ws_snd_fields none _).2.2.2.1
    · exact (ws_snd_fields none _).2.2.2.2

/-- C8 witness: the absent case at a state peeking x, and the present case
at a state peeking a comma. -/
theorem claim_C8_witness :
    ((TokenGen.peek c8StAbsent.tg).src ≠ "," ∧
      optional_token 60 "extracomma" "," c8StAbsent = .ok c8StAbsent) ∧
    ((TokenGen.peek c8StPresent.tg).src = "," ∧
      (∃ wsS st', optional_token 60 "extracomma" "," c8StPresent = .ok st' ∧
        plookup st'.props 60 "extracomma" =
          some (.s (strPropOr c8StPresent 60 "extracomma" ++ ("," ++ wsS))) ∧
        st'.tg.toks.length < c8StPresent.tg.toks.length ∧
        st'.stack = c8StPresent.stack ∧ st'.indent = c8StPresent.indent ∧
        st'.indent_diff = c8StPresent.indent_diff)) :=
  ⟨⟨by decide, (claim_C8 60 "extracomma" "," c8StAbsent).1 (by decide)⟩,
   ⟨by decide, (claim_C8 60 "extracomma" "," c8StPresent).2 (by decide) (by decide)⟩⟩

/-- C1: for block children annotated through the indent-detecting path of
the indented traversal (not the same-line special case), the raw leading
whitespace of the first child's line must start with the enclosing indent
string and be strictly longer.  Every violating input makes the traversal
fail with the annotation failure carrying the indent-detection message,
never proceeding silently; and whenever the traversal succeeds, the
detected indent did strictly extend the enclosing one. -/
theorem claim_C1 (visitF : Node → Annot → Except Err Annot) (nid : Nat)
    (cAttr : String) (children : List Node) (st : Annot) (c0 : Node)
    (lineText : String)
    (hguard : sameLineGuard children st = false)
    (hhead : children.head? = some c0)
    (hline : st.tg.lines.get? (c0.lineno - 1) = some lineText) :
    (¬ (pyStartsWith (pyTakeIndent lineText) st.indent = true ∧
        st.indent.data.length < (pyTakeIndent lineText).data.length) →
      indented visitF nid cAttr children st =
        .error (.annotationError indentFailMsg)) ∧
    (exceptIsOk (indented visitF nid cAttr children st) = true →
      pyStartsWith (pyTakeIndent lineText) st.indent = true ∧
      st.indent.data.length < (pyTakeIndent lineText).data.length) := by
  cases children with
  | nil => simp at hhead
  | cons c rest =>
    simp only [List.head?, Option.some.injEq] at hhead
    subst hhead
    have hcond : (pyStartsWith (pyTakeIndent lineText) st.indent = false ∨
        (pyTakeIndent lineText).data.length ≤ st.indent.data.length) ↔
        ¬ (pyStartsWith (pyTakeIndent lineText) st.indent = true ∧
           st.indent.data.length < (pyTakeIndent lineText).data.length) := by
      rw [not_and_or, Nat.not_lt, Bool.not_eq_true]
    constructor
    · intro hbad
      simp only [indented, hguard, Bool.false_eq_true, if_false, hline]
      rw [if_pos (hcond.mpr hbad)]
    · intro hok
      by_contra hbad
      simp only [indented, hguard, Bool.false_eq_true, if_false, hline] at hok
      rw [if_pos (hcond.mpr hbad)] at hok
      simp [exceptIsOk] at hok

/-- C1 witness: a body line indented less than the enclosing block makes
the traversal fail with the indent-detection annotation failure. -/
theorem claim_C1_witness :
    sameLineGuard [c1Child] c1St = false ∧
    [c1Child].head? = some c1Child ∧
    c1St.tg.lines.get? (c1Child.lineno - 1) = some "y = 1" ∧
    ((¬ (pyStartsWith (pyTakeIndent "y = 1") c1St.indent = true ∧
        c1St.indent.data.length < (pyTakeIndent "y = 1").data.length) →
      indented idVisit 1 "body" [c1Child] c1St =
        .error (.annotationError indentFailMsg)) ∧
     (exceptIsOk (indented idVisit 1 "body" [c1Child] c1St) = true →
      pyStartsWith (pyTakeIndent "y = 1") c1St.indent = true ∧
      c1St.indent.data.length < (pyTakeIndent "y = 1").data.length)) :=
  ⟨by decide, rfl, by decide,
   claim_C1 idVisit 1 "body" [c1Child] c1St c1Child "y = 1"
     (by decide) rfl (by decide)⟩

theorem strAppend_cancel (a b : String) (s : String) (h : a ++ s = b ++ s) : a = b := by
  have hd : a.data ++ s.data = b.data ++ s.data := by
    rw [← String.data_append, ← String.data_append, h]
  exact String.ext (List.append_cancel_right hd)

theorem snap_fields (nid : Nat) (deps : List String) (st : Annot) :
    (snapshotDeps nid deps st).tg = st.tg ∧
    (snapshotDeps nid deps st).flds = st.flds ∧
    (snapshotDeps nid deps st).stack = st.stack ∧
    (snapshotDeps nid deps st).indent = st.indent ∧
    (snapshotDeps nid deps st).indent_diff = st.indent_diff := by
  induction deps generalizing st with
  | nil => exact ⟨rfl, rfl, rfl, rfl, rfl⟩
  | cons d rest ih =>
    simp only [snapshotDeps, List.foldl_cons]
    have := ih (setprop st nid (d ++ "__src") (fieldPVal st nid d))
    simpa [snapshotDeps, setprop] using this

theorem snap_frame (nid : Nat) (deps : List String) (st : Annot)
    (id : Nat) (k : String)
    (h : ∀ d ∈ deps, ¬ (id = nid ∧ k = d ++ "__src")) :
    plookup (snapshotDeps nid deps st).props id k = plookup st.props id k := by
  induction deps generalizing st with
  | nil => rfl
  | cons d rest ih =>
    simp only [snapshotDeps, List.foldl_cons]
    have h1 := ih (setprop st nid (d ++ "__src") (fieldPVal st nid d))
      (fun d' hd' => h d' (List.mem_cons_of_mem _ hd'))
    simp only [snapshotDeps] at h1
    rw [h1, plookup_setprop_ne _ _ _ _ _ _ (h d (List.mem_cons_self _ _))]

theorem fieldPVal_congr (a b : Annot) (nid : Nat) (d : String)
    (h : a.flds = b.flds) : fieldPVal a nid d = fieldPVal b nid d := by
  simp only [fieldPVal, h]

theorem snap_lookup (nid : Nat) (deps : List String) (st : Annot)
    (d : String) (hd : d ∈ deps) :
    plookup (snapshotDeps nid deps st).props nid (d ++ "__src") =
      some (fieldPVal st nid d) := by
  induction deps generalizing st with
  | nil => simp at hd
  | cons d0 rest ih =>
    simp only [snapshotDeps, List.foldl_cons]
    by_cases hmem : d ∈ rest
    · have := ih (setprop st nid (d0 ++ "__src") (fieldPVal st nid d0)) hmem
      simp only [snapshotDeps] at this
      rw [this]
      rw [fieldPVal_congr _ st _ _ (by simp [setprop])]
    · rcases List.mem_cons.mp hd with heq | hmem'
      · subst heq
        have hfr : plookup (snapshotDeps nid rest
            (setprop st nid (d ++ "__src") (fieldPVal st nid d))).props nid (d ++ "__src") =
            plookup (setprop st nid (d ++ "__src") (fieldPVal st nid d)).props nid (d ++ "__src") := by
          apply snap_frame
          intro d' hd' hc
          exact hmem (by rw [strAppend_cancel d d' "__src" hc.2] ; exact hd')
        simp only [snapshotDeps] at hfr
        rw [hfr, plookup_setprop_self]
      · exact absurd hmem' hmem

/-- C7: for a dependency-bearing formatting slot, the current value of
every named dependency field is snapshotted onto the node before any
source text is consumed (the snapshot step leaves the token cursor
untouched and records the pre-state field values), and on success the
consumed text is stored as the slot's attribute on the same node together
with those snapshots. -/
theorem claim_C7 (nid : Nat) (attrName : String) (vals : List AttrVal)
    (deps : List String) (st : Annot)
    (hname : ∀ d ∈ deps, ¬ d ++ "__src" = attrName) :
    (snapshotDeps nid deps st).tg = st.tg ∧
    (∀ d ∈ deps, plookup (snapshotDeps nid deps st).props nid (d ++ "__src") =
        some (fieldPVal st nid d)) ∧
    (match attr nid attrName vals deps st with
     | .ok st' =>
        (∀ d ∈ deps, plookup st'.props nid (d ++ "__src") =
            some (fieldPVal st nid d)) ∧
        ∃ txt, plookup st'.props nid attrName = some (.s txt)
     | .error _ => True) := by
  refine ⟨(snap_fields nid deps st).1, fun d hd => snap_lookup nid deps st d hd, ?_⟩
  cases hres : attr nid attrName vals deps st with
  | error e => exact trivial
  | ok st' =>
    simp only [attr] at hres
    split at hres
    · simp at hres
    · rename_i r heq
      simp only [Except.ok.injEq] at hres
      subst hres
      have hr := rav_ok_fields vals (snapshotDeps nid deps st) r.1 r.2 (by rw [heq])
      constructor
      · intro d hd
        rw [plookup_setprop_ne _ _ _ _ _ _ (fun hc => hname d hd hc.2)]
        rw [hr.1]
        exact snap_lookup nid deps st d hd
      · exact ⟨r.1, plookup_setprop_self _ _ _ _⟩

/-- C7 witness: a content slot depending on field n, at a node whose n
field is 42. -/
theorem claim_C7_witness :
    (∀ d ∈ ["n"], ¬ d ++ "__src" = "content") ∧
    ((snapshotDeps 50 ["n"] c7St).tg = c7St.tg ∧
     (∀ d ∈ ["n"], plookup (snapshotDeps 50 ["n"] c7St).props 50 (d ++ "__src") =
         some (fieldPVal c7St 50 d)) ∧
     (match attr 50 "content" [.wsMax none] ["n"] c7St with
      | .ok st' =>
         (∀ d ∈ ["n"], plookup st'.props 50 (d ++ "__src") =
             some (fieldPVal c7St 50 d)) ∧
         ∃ txt, plookup st'.props 50 "content" = some (.s txt)
      | .error _ => True)) :=
  ⟨by decide, claim_C7 50 "content" [.wsMax none] ["n"] c7St (by decide)⟩

theorem wsAux_find (b : Option Nat) (l : List Token) (loc : Nat × Nat) :
    (wsAux b l loc).2.1.find? (fun t => !t.isWs) = l.find? (fun t => !t.isWs) := by
  induction l generalizing b loc with
  | nil => simp [wsAux]
  | cons t ts ih =>
    simp only [wsAux]
    split
    · rename_i hcond
      have hw : t.isWs = true := by
        cases hiw : t.isWs
        · rw [hiw] at hcond; simp at hcond
        · rfl
      simp only [List.find?, hw, Bool.not_true]
      exact ih _ _
    · rfl

theorem ws_peek (m : Option Nat) (st : Annot) :
    TokenGen.peek (ws m st).2.tg = TokenGen.peek st.tg := by
  simp only [ws, TokenGen.whitespace, TokenGen.peek]
  rw [wsAux_find]

theorem token_ok_of_peek (v : String) (st : Annot)
    (h : (TokenGen.peek st.tg).src = v) :
    ∃ st', token v st = .ok (v, st') ∧ st'.props = st.props ∧ st'.flds = st.flds ∧
      st'.stack = st.stack ∧ st'.indent = st.indent ∧ st'.indent_diff = st.indent_diff := by
  simp only [token, next_fst_eq_peek, h, if_pos]
  split
  · exact ⟨_, rfl, rfl, rfl, rfl, rfl, rfl⟩
  · split
    · exact ⟨_, rfl, rfl, rfl, rfl, rfl, rfl⟩
    · exact ⟨_, rfl, rfl, rfl, rfl, rfl, rfl⟩

theorem attrWsLitWs_ok (nid : Nat) (name : String) (v : String) (m1 m2 : Option Nat)
    (st : Annot) (h : (TokenGen.peek st.tg).src = v) :
    ∃ st', attr nid name [.wsMax m1, .lit v, .wsMax m2] [] st = .ok st' ∧
      st'.flds = st.flds ∧ st'.stack = st.stack ∧ st'.indent = st.indent ∧
      st'.indent_diff = st.indent_diff ∧
      (∀ id k, ¬ (id = nid ∧ k = name) →
        plookup st'.props id k = plookup st.props id k) ∧
      ∃ txt, plookup st'.props nid name = some (.s txt) := by
  obtain ⟨st2, htok, hp2, hf2, hs2, hi2, hid2⟩ :=
    token_ok_of_peek v (ws m1 st).2 (by rw [ws_peek, h])
  have hws1 := ws_snd_fields m1 st
  have hws2 := ws_snd_fields m2 st2
  simp only [attr, snapTrivial, runAttrVals, htok]
  refine ⟨_, rfl, ?_, ?_, ?_, ?_, ?_, ?_⟩
  · simp only [setprop]
    rw [hws2.2.1, hf2, hws1.2.1]
  · simp only [setprop]
    rw [hws2.2.2.1, hs2, hws1.2.2.1]
  · simp only [setprop]
    rw [hws2.2.2.2.1, hi2, hws1.2.2.2.1]
  · simp only [setprop]
    rw [hws2.2.2.2.2, hid2, hws1.2.2.2.2]
  · intro id k hk
    rw [plookup_setprop_ne _ _ _ _ _ _ hk, hws2.1, hp2, hws1.1]
  · exact ⟨_, plookup_setprop_self _ _ _ _⟩

/-- C4: when a With statement's body is exactly one nested With and the
peeked token is a comma, the traversal flags the nested node is_continued
and records the comma separator as the outer node's with_comma attribute,
leaving any open_block attribute untouched; when the peeked token is not a
comma it takes the ordinary open_block path.  A With node flagged
is_continued skips the opening with-keyword slot entirely, while an
unflagged one consumes it. -/
theorem claim_C4 (nid : Nat) (b : Node) (st : Annot) :
    (Node.isWith b = true → (TokenGen.peek st.tg).src = "," →
      withOpenOrComma nid [b] st =
        attr nid "with_comma" [.wsMax none, .lit ",", .wsMax none] []
          (setprop st b.nid "is_continued" (.b true)) ∧
      ∃ st', withOpenOrComma nid [b] st = .ok st' ∧
        plookup st'.props b.nid "is_continued" = some (.b true) ∧
        (∃ s, plookup st'.props nid "with_comma" = some (.s s)) ∧
        plookup st'.props nid "open_block" = plookup st.props nid "open_block") ∧
    ((TokenGen.peek st.tg).src ≠ "," →
      withOpenOrComma nid [b] st =
        attr nid "open_block" [.wsMax none, .lit ":", .wsMax (some 1)] [] st) ∧
    (propIsTrue st nid "is_continued" = true → withKeyword nid st = .ok st) ∧
    (propIsTrue st nid "is_continued" = false →
      withKeyword nid st = attr nid "with" [.lit "with", .wsMax none] [] st) := by
  refine ⟨?_, ?_, ?_, ?_⟩
  · intro hw hp
    have hchk : check_is_continued_with st b = true := by
      simp [check_is_continued_with, hw, hp]
    have heqn : withOpenOrComma nid [b] st =
        attr nid "with_comma" [.wsMax none, .lit ",", .wsMax none] []
          (setprop st b.nid "is_continued" (.b true)) := by
      simp [withOpenOrComma, hchk]
    refine ⟨heqn, ?_⟩
    obtain ⟨st', hok, hf, hs, hi, hid, hfr, htxt⟩ :=
      attrWsLitWs_ok nid "with_comma" "," none none
        (setprop st b.nid "is_continued" (.b true)) (by simpa [setprop] using hp)
    refine ⟨st', heqn.trans hok, ?_, htxt, ?_⟩
    · rw [hfr b.nid "is_continued" (by simp), plookup_setprop_self]
    · rw [hfr nid "open_block" (by simp),
        plookup_setprop_ne _ _ _ _ _ _ (by simp)]
  · intro hp
    have hchk : check_is_continued_with st b = false := by
      simp [check_is_continued_with, hp]
    simp [withOpenOrComma, hchk]
  · intro hflag
    simp [withKeyword, hflag]
  · intro hflag
    simp [withKeyword, hflag]

/-- C4 witness: the comma case at the continued-with fixture and the colon
case at the nested-block fixture, plus the keyword skip for a flagged
node. -/
theorem claim_C4_witness :
    (Node.isWith c4B = true ∧ (TokenGen.peek c4St.tg).src = "," ∧
      (∃ st', withOpenOrComma 1 [c4B] c4St = .ok st' ∧
        plookup st'.props c4B.nid "is_continued" = some (.b true) ∧
        (∃ s, plookup st'.props 1 "with_comma" = some (.s s)) ∧
        plookup st'.props 1 "open_block" = plookup c4St.props 1 "open_block")) ∧
    ((TokenGen.peek c4StColon.tg).src ≠ "," ∧
      withOpenOrComma 1 [c4B] c4StColon =
        attr 1 "open_block" [.wsMax none, .lit ":", .wsMax (some 1)] [] c4StColon) ∧
    (propIsTrue (setprop c4St 1 "is_continued" (.b true)) 1 "is_continued" = true ∧
      withKeyword 1 (setprop c4St 1 "is_continued" (.b true)) =
        .ok (setprop c4St 1 "is_continued" (.b true))) ∧
    (propIsTrue c4St 1 "is_continued" = false ∧
      withKeyword 1 c4St = attr 1 "with" [.lit "with", .wsMax none] [] c4St) :=
  ⟨⟨rfl, by decide, ((claim_C4 1 c4B c4St).1 rfl (by decide)).2⟩,
   ⟨by decide, (claim_C4 1 c4B c4StColon).2.1 (by decide)⟩,
   ⟨by decide, (claim_C4 1 c4B (setprop c4St 1 "is_continued" (.b true))).2.2.1 (by decide)⟩,
   ⟨by decide, (claim_C4 1 c4B c4St).2.2.2 (by decide)⟩⟩

/-! The frame calculus for the driver induction. -/

theorem PFrame_refl (ids : List Nat) (a : Annot) : PFrame ids a a :=
  ⟨rfl, fun _ _ h => absurd rfl h⟩

theorem PFrame_of_fields (ids : List Nat) (a b : Annot)
    (hs : b.stack = a.stack) (hp : b.props = a.props) : PFrame ids a b :=
  ⟨hs, fun _ _ h => absurd (by rw [hp]) h⟩

theorem PFrame_trans {ids : List Nat} {a b c : Annot}
    (h1 : PFrame ids a b) (h2 : PFrame ids b c) : PFrame ids a c := by
  refine ⟨h2.1.trans h1.1, ?_⟩
  intro id k hne
  by_cases hmid : plookup b.props id k = plookup a.props id k
  · exact h2.2 id k (fun hc => hne (hc.trans hmid))
  · exact h1.2 id k hmid

theorem PFrame_mono {ids ids' : List Nat} {a b : Annot}
    (hsub : ∀ x, x ∈ ids → x ∈ ids') (h : PFrame ids a b) : PFrame ids' a b :=
  ⟨h.1, fun id k hne => hsub id (h.2 id k hne)⟩

theorem PFrame_setprop (ids : List Nat) (st : Annot) (nid : Nat) (k : String)
    (v : PVal) (hmem : nid ∈ ids) : PFrame ids st (setprop st nid k v) := by
  refine ⟨rfl, ?_⟩
  intro id k' hne
  by_cases hc : id = nid ∧ k' = k
  · exact hc.1 ▸ hmem
  · exact absurd (plookup_setprop_ne st nid k v id k' hc) hne

theorem attr0_pf {ids : List Nat} (nid : Nat) (name : String) (vals : List AttrVal)
    (st st' : Annot) (h : attr nid name vals [] st = .ok st') (hmem : nid ∈ ids) :
    PFrame ids st st' := by
  obtain ⟨-, hs, -, -, hfr, -⟩ := attr0_ok nid name vals st st' h
  refine ⟨hs, ?_⟩
  intro id k hne
  by_cases hc : id = nid ∧ k = name
  · exact hc.1 ▸ hmem
  · exact absurd (hfr id k hc) hne

theorem mem_flatten_map (idsOf : Node → List Nat) (l : List Node) (c : Node)
    (hc : c ∈ l) (x : Nat) (hx : x ∈ idsOf c) : x ∈ (l.map idsOf).flatten := by
  rw [List.mem_flatten]
  exact ⟨idsOf c, List.mem_map_of_mem _ hc, hx⟩

theorem normalizeErr_ann (e : Err) (h : e ≠ .assertionError) :
    ∃ m, normalizeErr e = .annotationError m := by
  cases e with
  | annotationError m => exact ⟨m, rfl⟩
  | typeError m => exact ⟨m, rfl⟩
  | valueError m => exact ⟨m, rfl⟩
  | indexError m => exact ⟨m, rfl⟩
  | keyError m => exact ⟨m, rfl⟩
  | assertionError => exact absurd rfl h

theorem seqVisit_post (idsOf : Node → List Nat)
    (visitF : Node → Annot → Except Err Annot)
    (hF : VisitNice idsOf visitF) (l : List Node) (st : Annot) :
    match seqVisit visitF l st with
    | .ok st' => PFrame ((l.map idsOf).flatten) st st' ∧
        ∀ c ∈ l, ∃ s s', visitF c s = .ok s'
    | .error e => ∃ m, e = .annotationError m := by
  induction l generalizing st with
  | nil => exact ⟨PFrame_refl _ _, by simp⟩
  | cons c cs ih =>
    cases hv : visitF c st with
    | error e =>
      simp only [seqVisit, hv]
      have := hF c st
      rw [hv] at this
      exact this
    | ok st1 =>
      have h1 : PFrame (idsOf c) st st1 := by
        have := hF c st; rwa [hv] at this
      cases hs : seqVisit visitF cs st1 with
      | error e =>
        simp only [seqVisit, hv, hs]
        have := ih st1
        rw [hs] at this
        exact this
      | ok st2 =>
        simp only [seqVisit, hv, hs]
        have h2 := ih st1
        rw [hs] at h2
        refine ⟨PFrame_trans (PFrame_mono ?_ h1) (PFrame_mono ?_ h2.1), ?_⟩
        · intro x hx
          exact mem_flatten_map idsOf (c :: cs) c (List.mem_cons_self _ _) x hx
        · intro x hx
          rw [List.mem_flatten] at hx ⊢
          obtain ⟨ys, hys, hxy⟩ := hx
          exact ⟨ys, by simp only [List.map_cons]; exact List.mem_cons_of_mem _ hys, hxy⟩
        · intro c' hc'
          rcases List.mem_cons.mp hc' with heq | hmem
          · exact ⟨st, st1, heq ▸ hv⟩
          · exact h2.2 c' hmem

theorem plookup_cons_ne (l : List ((Nat × String) × PVal)) (nid : Nat)
    (k : String) (v : PVal) (id : Nat) (k' : String)
    (h : ¬ (id = nid ∧ k' = k)) :
    plookup (((nid, k), v) :: l) id k' = plookup l id k' := by
  simp only [plookup]
  rw [if_neg]
  intro hc
  exact h ⟨hc.1.symm, hc.2.symm⟩

theorem indented_post (idsOf : Node → List Nat)
    (visitF : Node → Annot → Except Err Annot)
    (hF : VisitNice idsOf visitF) (nid : Nat) (cAttr : String)
    (children : List Node) (st : Annot) :
    match indented visitF nid cAttr children st with
    | .ok st' => PFrame (nid :: (children.map idsOf).flatten) st st' ∧
        ∀ c ∈ children, ∃ s s', visitF c s = .ok s'
    | .error e => e ≠ .assertionError := by
  by_cases hguard : sameLineGuard children st = true
  · cases children with
    | nil => simp [sameLineGuard] at hguard
    | cons c rest =>
      have hrest : rest = [] := by
        simp only [sameLineGuard, Bool.and_eq_true, beq_iff_eq] at hguard
        have := hguard.1
        simp only [List.length_cons] at this
        exact List.length_eq_zero.mp (by omega)
      subst hrest
      simp only [indented, hguard, if_true]
      cases hv : visitF c st with
      | error e =>
        have := hF c st
        rw [hv] at this
        obtain ⟨m, hm⟩ := this
        subst hm
        simp
      | ok st1 =>
        have hfr := hF c st
        rw [hv] at hfr
        refine ⟨PFrame_mono ?_ hfr, ?_⟩
        · intro x hx
          exact List.mem_cons_of_mem _
            (mem_flatten_map idsOf [c] c (List.mem_cons_self _ _) x hx)
        · intro c' hc'
          rcases List.mem_cons.mp hc' with heq | hmem
          · exact ⟨st, st1, heq ▸ hv⟩
          · simp at hmem
  · have hguard' : sameLineGuard children st = false := by
      cases h : sameLineGuard children st
      · rfl
      · exact absurd h hguard
    cases children with
    | nil =>
      simp only [indented, hguard', Bool.false_eq_true, if_false]
      simp
    | cons c0 rest =>
      simp only [indented, hguard', Bool.false_eq_true, if_false]
      cases hline : st.tg.lines.get? (c0.lineno - 1) with
      | none => simp
      | some lineText =>
        simp only []
        by_cases hcond : (pyStartsWith (pyTakeIndent lineText) st.indent = false ∨
            (pyTakeIndent lineText).data.length ≤ st.indent.data.length)
        · rw [if_pos hcond]
          simp
        · rw [if_neg hcond]
          have hseq := seqVisit_post idsOf visitF hF (c0 :: rest)
            { st with indent := pyTakeIndent lineText,
                      indent_diff := strDropChars (pyTakeIndent lineText) st.indent.data.length }
          cases hs : seqVisit visitF (c0 :: rest)
              { st with indent := pyTakeIndent lineText,
                        indent_diff := strDropChars (pyTakeIndent lineText) st.indent.data.length } with
          | error e =>
            rw [hs] at hseq
            obtain ⟨m, hm⟩ := hseq
            subst hm
            simp
          | ok st2 =>
            rw [hs] at hseq
            have h01 : PFrame (nid :: ((c0 :: rest).map idsOf).flatten) st
                { st with indent := pyTakeIndent lineText,
                          indent_diff := strDropChars (pyTakeIndent lineText) st.indent.data.length } :=
              PFrame_of_fields _ _ _ rfl rfl
            have h12 : PFrame (nid :: ((c0 :: rest).map idsOf).flatten)
                { st with indent := pyTakeIndent lineText,
                          indent_diff := strDropChars (pyTakeIndent lineText) st.indent.data.length } st2 :=
              PFrame_mono (fun x hx => List.mem_cons_of_mem _ hx) hseq.1
            refine ⟨PFrame_trans (PFrame_trans h01 h12) ⟨rfl, ?_⟩, hseq.2⟩
            intro id k hne
            by_cases hc : id = nid ∧ k = "block_suffix_" ++ cAttr
            · exact hc.1 ▸ List.mem_cons_self _ _
            · exfalso
              apply hne
              show plookup ((((nid, "block_suffix_" ++ cAttr), _) :: st2.props)) id k =
                plookup st2.props id k
              exact plookup_cons_ne _ _ _ _ _ _ hc

theorem visitName_post (pyid : String) (nid : Nat) (st : Annot) :
    match visitName pyid nid st with
    | .ok st' => PFrame [nid] st st'
    | .error e => ∃ m, e = .annotationError m := by
  have hmem : nid ∈ [nid] := List.mem_cons_self _ _
  simp only [visitName]
  cases h1 : prefixWs nid (scopeOpen st) with
  | error e =>
    simp only [h1]
    exact attr_err _ _ _ _ _ _ h1
  | ok st1 =>
    simp only [h1]
    have hf1 : PFrame [nid] st st1 :=
      PFrame_trans (PFrame_of_fields [nid] st (scopeOpen st) rfl rfl)
        (attr0_pf _ _ _ _ _ (by simpa [prefixWs] using h1) hmem)
    cases h2 : token pyid st1 with
    | error e =>
      simp only [h2]
      exact token_err _ _ _ h2
    | ok r =>
      simp only [h2]
      have htk := token_ok_fields pyid st1 r.1 r.2 (by rw [h2])
      have hf2 : PFrame [nid] st r.2 :=
        PFrame_trans hf1 (PFrame_of_fields _ _ _ htk.2.2.1 htk.1)
      cases h3 : suffixWs nid (some 0) r.2 with
      | error e =>
        simp only [h3]
        exact attr_err _ _ _ _ _ _ h3
      | ok st3 =>
        simp only [h3]
        exact PFrame_trans (PFrame_trans hf2
          (attr0_pf _ _ _ _ _ (by simpa [suffixWs] using h3) hmem))
          (PFrame_of_fields [nid] st3 (scopeClose st3) rfl rfl)

theorem visitModule_post (idsOf : Node → List Nat)
    (visitF : Node → Annot → Except Err Annot)
    (hF : VisitNice idsOf visitF) (nid : Nat) (body : List Node) (st : Annot) :
    match visitModule visitF nid body st with
    | .ok st' => PFrame (nid :: (body.map idsOf).flatten) st st'
    | .error e => e ≠ .assertionError := by
  have hmem : nid ∈ nid :: (body.map idsOf).flatten := List.mem_cons_self _ _
  simp only [visitModule]
  cases h1 : prefixWs nid st with
  | error e =>
    simp only [h1]
    obtain ⟨m, hm⟩ := attr_err _ _ _ _ _ _ h1
    subst hm; simp
  | ok st1 =>
    simp only [h1]
    have hf1 : PFrame (nid :: (body.map idsOf).flatten) st st1 :=
      attr0_pf _ _ _ _ _ (by simpa [prefixWs] using h1) hmem
    have hseq := seqVisit_post idsOf visitF hF body st1
    cases h2 : seqVisit visitF body st1 with
    | error e =>
      simp only [h2]
      rw [h2] at hseq
      obtain ⟨m, hm⟩ := hseq
      subst hm; simp
    | ok st2 =>
      simp only [h2]
      rw [h2] at hseq
      have hf2 : PFrame (nid :: (body.map idsOf).flatten) st st2 :=
        PFrame_trans hf1
          (PFrame_mono (fun x hx => List.mem_cons_of_mem _ hx) hseq.1)
      cases h3 : attr nid "suffix" [.wsMax none] [] st2 with
      | error e =>
        simp only [h3]
        obtain ⟨m, hm⟩ := attr_err _ _ _ _ _ _ h3
        subst hm; simp
      | ok st3 =>
        simp only [h3]
        exact PFrame_trans hf2 (attr0_pf _ _ _ _ _ h3 hmem)

theorem withOpenOrComma_post (nid : Nat) (body : List Node) (st : Annot) :
    match withOpenOrComma nid body st with
    | .ok st' => st'.stack = st.stack ∧
        ∀ id k, plookup st'.props id k ≠ plookup st.props id k →
          id = nid ∨ ∃ bn ∈ body, id = Node.nid bn
    | .error e => ∃ m, e = .annotationError m := by
  have hdefault : ∀ (stx : Annot),
      (match attr nid "open_block" [.wsMax none, .lit ":", .wsMax (some 1)] [] stx with
       | .ok st' => st'.stack = stx.stack ∧
           ∀ id k, plookup st'.props id k ≠ plookup stx.props id k →
             id = nid ∨ ∃ bn ∈ body, id = Node.nid bn
       | .error e => ∃ m, e = .annotationError m) := by
    intro stx
    cases h : attr nid "open_block" [.wsMax none, .lit ":", .wsMax (some 1)] [] stx with
    | error e => exact attr_err _ _ _ _ _ _ h
    | ok st' =>
      obtain ⟨-, hs, -, -, hfr, -⟩ := attr0_ok _ _ _ _ _ h
      refine ⟨hs, ?_⟩
      intro id k hne
      by_cases hc : id = nid ∧ k = "open_block"
      · exact Or.inl hc.1
      · exact absurd (hfr id k hc) hne
  cases body with
  | nil => exact hdefault st
  | cons b rest =>
    cases rest with
    | cons b2 rest2 => exact hdefault st
    | nil =>
      simp only [withOpenOrComma]
      by_cases hchk : check_is_continued_with st b = true
      · rw [if_pos hchk]
        cases h : attr nid "with_comma" [.wsMax none, .lit ",", .wsMax none] []
            (setprop st b.nid "is_continued" (.b true)) with
        | error e =>
          simp only [h]
          exact attr_err _ _ _ _ _ _ h
        | ok st' =>
          simp only [h]
          obtain ⟨-, hs, -, -, hfr, -⟩ := attr0_ok _ _ _ _ _ h
          refine ⟨hs.trans rfl, ?_⟩
          intro id k hne
          by_cases hc : id = nid ∧ k = "with_comma"
          · exact Or.inl hc.1
          · have h1 := hfr id k hc
            by_cases hc2 : id = b.nid ∧ k = "is_continued"
            · exact Or.inr ⟨b, List.mem_cons_self _ _, hc2.1⟩
            · exfalso
              apply hne
              rw [h1]
              exact plookup_setprop_ne _ _ _ _ _ _ hc2
      · rw [if_neg hchk]
        exact hdefault st

theorem withKeyword_post (nid : Nat) (st : Annot) :
    match withKeyword nid st with
    | .ok st' => st'.stack = st.stack ∧
        ∀ id k, plookup st'.props id k ≠ plookup st.props id k → id = nid
    | .error e => ∃ m, e = .annotationError m := by
  simp only [withKeyword]
  by_cases hfl : propIsTrue st nid "is_continued" = false
  · rw [if_pos hfl]
    cases h : attr nid "with" [.lit "with", .wsMax none] [] st with
    | error e => exact attr_err _ _ _ _ _ _ h
    | ok st' =>
      obtain ⟨-, hs, -, -, hfr, -⟩ := attr0_ok _ _ _ _ _ h
      refine ⟨hs, ?_⟩
      intro id k hne
      by_cases hc : id = nid ∧ k = "with"
      · exact hc.1
      · exact absurd (hfr id k hc) hne
  · rw [if_neg hfl]
    exact ⟨rfl, fun id k hne => absurd rfl hne⟩

theorem visitIf_post (idsOf : Node → List Nat)
    (visitF : Node → Annot → Except Err Annot)
    (hF : VisitNice idsOf visitF) (hSelf : SelfIds idsOf visitF)
    (nid : Nat) (t : Node) (b o : List Node) (st : Annot) :
    match visitIf visitF nid t b o st with
    | .ok st' =>
        PFrame (nid :: (idsOf t ++ ((b.map idsOf).flatten ++ (o.map idsOf).flatten))) st st'
    | .error e => e ≠ .assertionError := by
  have hmem : nid ∈ nid :: (idsOf t ++ ((b.map idsOf).flatten ++ (o.map idsOf).flatten)) :=
    List.mem_cons_self _ _
  have subT : ∀ x ∈ idsOf t,
      x ∈ nid :: (idsOf t ++ ((b.map idsOf).flatten ++ (o.map idsOf).flatten)) :=
    fun x hx => List.mem_cons_of_mem _ (List.mem_append_left _ hx)
  have subB : ∀ x ∈ (b.map idsOf).flatten,
      x ∈ nid :: (idsOf t ++ ((b.map idsOf).flatten ++ (o.map idsOf).flatten)) :=
    fun x hx => List.mem_cons_of_mem _
      (List.mem_append_right _ (List.mem_append_left _ hx))
  have subO : ∀ x ∈ (o.map idsOf).flatten,
      x ∈ nid :: (idsOf t ++ ((b.map idsOf).flatten ++ (o.map idsOf).flatten)) :=
    fun x hx => List.mem_cons_of_mem _
      (List.mem_append_right _ (List.mem_append_right _ hx))
  simp only [visitIf]
  cases h1 : prefixWs nid st with
  | error e =>
    simp only [h1]
    obtain ⟨m, hm⟩ := attr_err _ _ _ _ _ _ h1
    subst hm; simp
  | ok st1 =>
    simp only [h1]
    have hf1 := attr0_pf _ _ _ _ _ (by simpa [prefixWs] using h1) hmem
    cases h2 : attr nid "open_if"
        [.lit (if propIsTrue st1 nid "is_elif" then "elif" else "if"), .wsMax none] [] st1 with
    | error e =>
      simp only [h2]
      obtain ⟨m, hm⟩ := attr_err _ _ _ _ _ _ h2
      subst hm; simp
    | ok st2 =>
      simp only [h2]
      have hf2 := PFrame_trans hf1 (attr0_pf _ _ _ _ _ h2 hmem)
      cases h3 : visitF t st2 with
      | error e =>
        simp only [h3]
        have := hF t st2
        rw [h3] at this
        obtain ⟨m, hm⟩ := this
        subst hm; simp
      | ok st3 =>
        simp only [h3]
        have hvt := hF t st2
        rw [h3] at hvt
        have hf3 := PFrame_trans hf2 (PFrame_mono subT hvt)
        cases h4 : attr nid "open_block" [.wsMax none, .lit ":", .wsMax (some 1)] [] st3 with
        | error e =>
          simp only [h4]
          obtain ⟨m, hm⟩ := attr_err _ _ _ _ _ _ h4
          subst hm; simp
        | ok st4 =>
          simp only [h4]
          have hf4 := PFrame_trans hf3 (attr0_pf _ _ _ _ _ h4 hmem)
          have hind := indented_post idsOf visitF hF nid "body" b st4
          cases h5 : indented visitF nid "body" b st4 with
          | error e =>
            simp only [h5]
            rw [h5] at hind
            exact hind
          | ok st5 =>
            simp only [h5]
            rw [h5] at hind
            have hf5 : PFrame
                (nid :: (idsOf t ++ ((b.map idsOf).flatten ++ (o.map idsOf).flatten))) st st5 :=
              PFrame_trans hf4 (PFrame_mono (fun x hx => by
                rcases List.mem_cons.mp hx with heq | hin
                · exact heq ▸ hmem
                · exact subB _ hin) hind.1)
            cases o with
            | nil => exact hf5
            | cons e0 rest =>
              simp only []
              by_cases helif : (e0 :: rest).length = 1 ∧ Node.isIf e0 = true ∧
                  check_is_elif st5 e0 = true
              · rw [if_pos helif]
                cases hv : visitF e0 (setprop st5 e0.nid "is_elif" (.b true)) with
                | error e =>
                  simp only [hv]
                  have := hF e0 (setprop st5 e0.nid "is_elif" (.b true))
                  rw [hv] at this
                  obtain ⟨m, hm⟩ := this
                  subst hm; simp
                | ok st' =>
                  simp only [hv]
                  have he0self : Node.nid e0 ∈ idsOf e0 := hSelf e0 _ _ hv
                  have he0mem := subO _ (mem_flatten_map idsOf (e0 :: rest) e0
                    (List.mem_cons_self _ _) _ he0self)
                  have hvf := hF e0 (setprop st5 e0.nid "is_elif" (.b true))
                  rw [hv] at hvf
                  exact PFrame_trans hf5 (PFrame_trans
                    (PFrame_setprop _ _ _ _ _ he0mem)
                    (PFrame_mono (fun x hx => subO _ (mem_flatten_map idsOf (e0 :: rest) e0
                      (List.mem_cons_self _ _) _ hx)) hvf))
              · rw [if_neg helif]
                cases h6 : attr nid "elseprefix" [.wsMax none] [] st5 with
                | error e =>
                  simp only [h6]
                  obtain ⟨m, hm⟩ := attr_err _ _ _ _ _ _ h6
                  subst hm; simp
                | ok st6 =>
                  simp only [h6]
                  have hf6 := PFrame_trans hf5 (attr0_pf _ _ _ _ _ h6 hmem)
                  cases h7 : token "else" st6 with
                  | error e =>
                    simp only [h7]
                    obtain ⟨m, hm⟩ := token_err _ _ _ h7
                    subst hm; simp
                  | ok r7 =>
                    simp only [h7]
                    have htk := token_ok_fields "else" st6 r7.1 r7.2 (by rw [h7])
                    have hf7 := PFrame_trans hf6
                      (PFrame_of_fields _ st6 r7.2 htk.2.2.1 htk.1)
                    cases h8 : attr nid "open_else"
                        [.wsMax none, .lit ":", .wsMax (some 1)] [] r7.2 with
                    | error e =>
                      simp only [h8]
                      obtain ⟨m, hm⟩ := attr_err _ _ _ _ _ _ h8
                      subst hm; simp
                    | ok st8 =>
                      simp only [h8]
                      have hf8 := PFrame_trans hf7 (attr0_pf _ _ _ _ _ h8 hmem)
                      have hind2 := indented_post idsOf visitF hF nid "orelse" (e0 :: rest) st8
                      cases h9 : indented visitF nid "orelse" (e0 :: rest) st8 with
                      | error e =>
                        simp only [h9]
                        rw [h9] at hind2
                        exact hind2
                      | ok st9 =>
                        simp only [h9]
                        rw [h9] at hind2
                        exact PFrame_trans hf8 (PFrame_mono (fun x hx => by
                          rcases List.mem_cons.mp hx with heq | hin
                          · exact heq ▸ hmem
                          · exact subO _ hin) hind2.1)

theorem visitWith_post (idsOf : Node → List Nat)
    (visitF : Node → Annot → Except Err Annot)
    (hF : VisitNice idsOf visitF) (hSelf : SelfIds idsOf visitF)
    (nid : Nat) (ctx : Node) (optvars : Option Node) (body : List Node) (st : Annot) :
    match visitWith visitF nid ctx optvars body st with
    | .ok st' =>
        PFrame (nid :: (idsOf ctx ++
          (optIds idsOf optvars ++
            (body.map idsOf).flatten))) st st'
    | .error e => e ≠ .assertionError := by
  have hmem : nid ∈ nid :: (idsOf ctx ++
      (optIds idsOf optvars ++ (body.map idsOf).flatten)) := List.mem_cons_self _ _
  have subC : ∀ x ∈ idsOf ctx, x ∈ nid :: (idsOf ctx ++
      (optIds idsOf optvars ++ (body.map idsOf).flatten)) :=
    fun x hx => List.mem_cons_of_mem _ (List.mem_append_left _ hx)
  have subBody : ∀ x ∈ (body.map idsOf).flatten, x ∈ nid :: (idsOf ctx ++
      (optIds idsOf optvars ++ (body.map idsOf).flatten)) :=
    fun x hx => List.mem_cons_of_mem _
      (List.mem_append_right _ (List.mem_append_right _ hx))
  simp only [visitWith]
  cases h1 : prefixWs nid st with
  | error e =>
    simp only [h1]
    obtain ⟨m, hm⟩ := attr_err _ _ _ _ _ _ h1
    subst hm; simp
  | ok st1 =>
    simp only [h1]
    have hf1 := attr0_pf _ _ _ _ _ (by simpa [prefixWs] using h1) hmem
    have hwk := withKeyword_post nid st1
    cases h2 : withKeyword nid st1 with
    | error e =>
      simp only [h2]
      rw [h2] at hwk
      obtain ⟨m, hm⟩ := hwk
      subst hm; simp
    | ok st2 =>
      simp only [h2]
      rw [h2] at hwk
      have hf2 := PFrame_trans hf1
        ⟨hwk.1, fun id k hne => by rw [hwk.2 id k hne]; exact hmem⟩
      cases h3 : visitF ctx st2 with
      | error e =>
        simp only [h3]
        have := hF ctx st2
        rw [h3] at this
        obtain ⟨m, hm⟩ := this
        subst hm; simp
      | ok st3 =>
        simp only [h3]
        have hvc := hF ctx st2
        rw [h3] at hvc
        have hf3 := PFrame_trans hf2 (PFrame_mono subC hvc)
        cases optvars with
        | none =>
          simp only []
          have hoc := withOpenOrComma_post nid body st3
          cases h5 : withOpenOrComma nid body st3 with
          | error e =>
            simp only [h5]
            rw [h5] at hoc
            obtain ⟨m, hm⟩ := hoc
            subst hm; simp
          | ok st5 =>
            simp only [h5]
            rw [h5] at hoc
            have hind := indented_post idsOf visitF hF nid "body" body st5
            cases h6 : indented visitF nid "body" body st5 with
            | error e =>
              simp only [h6]
              rw [h6] at hind
              exact hind
            | ok st6 =>
              simp only [h6]
              rw [h6] at hind
              have hf5 := PFrame_trans hf3 ⟨hoc.1, fun id k hne => by
                rcases hoc.2 id k hne with heq | ⟨bn, hbn, heq⟩
                · exact heq ▸ hmem
                · obtain ⟨s, s', hok⟩ := hind.2 bn hbn
                  exact heq ▸ subBody _ (mem_flatten_map idsOf body bn hbn _
                    (hSelf bn s s' hok))⟩
              exact PFrame_trans hf5 (PFrame_mono (fun x hx => by
                rcases List.mem_cons.mp hx with heq | hin
                · exact heq ▸ hmem
                · exact subBody _ hin) hind.1)
        | some v =>
          simp only []
          cases h4 : attr nid "with_as" [.wsMax none, .lit "as", .wsMax none] [] st3 with
          | error e =>
            simp only [h4]
            obtain ⟨m, hm⟩ := attr_err _ _ _ _ _ _ h4
            subst hm; simp
          | ok st3a =>
            simp only [h4]
            have hf3a := PFrame_trans hf3 (attr0_pf _ _ _ _ _ h4 hmem)
            cases h4b : visitF v st3a with
            | error e =>
              simp only [h4b]
              have := hF v st3a
              rw [h4b] at this
              obtain ⟨m, hm⟩ := this
              subst hm; simp
            | ok st4 =>
              simp only [h4b]
              have hvv := hF v st3a
              rw [h4b] at hvv
              have hf4 := PFrame_trans hf3a (PFrame_mono (fun x hx =>
                List.mem_cons_of_mem _ (List.mem_append_right _
                  (List.mem_append_left _ hx))) hvv)
              have hoc := withOpenOrComma_post nid body st4
              cases h5 : withOpenOrComma nid body st4 with
              | error e =>
                simp only [h5]
                rw [h5] at hoc
                obtain ⟨m, hm⟩ := hoc
                subst hm; simp
              | ok st5 =>
                simp only [h5]
                rw [h5] at hoc
                have hind := indented_post idsOf visitF hF nid "body" body st5
                cases h6 : indented visitF nid "body" body st5 with
                | error e =>
                  simp only [h6]
                  rw [h6] at hind
                  exact hind
                | ok st6 =>
                  simp only [h6]
                  rw [h6] at hind
                  have hf5 := PFrame_trans hf4 ⟨hoc.1, fun id k hne => by
                    rcases hoc.2 id k hne with heq | ⟨bn, hbn, heq⟩
                    · exact heq ▸ hmem
                    · obtain ⟨s, s', hok⟩ := hind.2 bn hbn
                      exact heq ▸ subBody _ (mem_flatten_map idsOf body bn hbn _
                        (hSelf bn s s' hok))⟩
                  exact PFrame_trans hf5 (PFrame_mono (fun x hx => by
                    rcases List.mem_cons.mp hx with heq | hin
                    · exact heq ▸ hmem
                    · exact subBody _ hin) hind.1)

theorem visitDispatch_post (idsOf : Node → List Nat)
    (visitF : Node → Annot → Except Err Annot)
    (hF : VisitNice idsOf visitF) (hSelf : SelfIds idsOf visitF)
    (n : Node) (st : Annot) :
    match visitDispatch visitF n st with
    | .ok st' => PFrame (Node.nid n :: kindIds idsOf n) st st'
    | .error e => e ≠ .assertionError := by
  cases n with
  | name nid ln pyid =>
    have := visitName_post pyid nid st
    simp only [visitDispatch]
    cases h : visitName pyid nid st with
    | error e =>
      rw [h] at this
      obtain ⟨m, hm⟩ := this
      subst hm; simp
    | ok st' =>
      rw [h] at this
      exact PFrame_mono (fun x hx => by
        simp only [Node.nid, kindIds]
        rcases List.mem_cons.mp hx with heq | hin
        · exact heq ▸ List.mem_cons_self _ _
        · simp at hin) this
  | ifStmt nid ln t b o =>
    have := visitIf_post idsOf visitF hF hSelf nid t b o st
    simp only [visitDispatch]
    cases h : visitIf visitF nid t b o st with
    | error e =>
      rw [h] at this
      exact this
    | ok st' =>
      rw [h] at this
      exact this
  | withStmt nid ln c ov b =>
    have := visitWith_post idsOf visitF hF hSelf nid c ov b st
    simp only [visitDispatch]
    cases h : visitWith visitF nid c ov b st with
    | error e =>
      rw [h] at this
      exact this
    | ok st' =>
      rw [h] at this
      exact this
  | module nid b =>
    have := visitModule_post idsOf visitF hF nid b st
    simp only [visitDispatch]
    cases h : visitModule visitF nid b st with
    | error e =>
      rw [h] at this
      exact this
    | ok st' =>
      rw [h] at this
      exact this

theorem setIndentProps_props (n : Node) (st : Annot) :
    (setIndentProps n st).props =
      ((Node.nid n, "indent_diff"), PVal.s st.indent_diff) ::
        ((Node.nid n, "indent"), PVal.s st.indent) :: st.props := rfl

theorem visitGo_post (idsOf : Node → List Nat)
    (visitF : Node → Annot → Except Err Annot)
    (hF : VisitNice idsOf visitF) (hSelf : SelfIds idsOf visitF)
    (n : Node) (st : Annot) :
    match visitGo visitF n st with
    | .ok st' => PFrame (Node.nid n :: kindIds idsOf n) st st'
    | .error e => ∃ m, e = .annotationError m := by
  simp only [visitGo]
  have hd := visitDispatch_post idsOf visitF hF hSelf n
    (pushStack n (setIndentProps n st))
  cases hres : visitDispatch visitF n (pushStack n (setIndentProps n st)) with
  | error e =>
    simp only [hres]
    rw [hres] at hd
    obtain ⟨m, hm⟩ := normalizeErr_ann e hd
    exact ⟨m, hm⟩
  | ok st3 =>
    simp only [hres]
    rw [hres] at hd
    have hstack : st3.stack = Node.nid n :: st.stack := by
      rw [hd.1]; rfl
    simp only [popAssert, hstack, if_true]
    refine ⟨rfl, ?_⟩
    intro id k hne
    replace hne : plookup st3.props id k ≠ plookup st.props id k := hne
    by_cases hmid : plookup st3.props id k =
        plookup (pushStack n (setIndentProps n st)).props id k
    · rw [hmid] at hne
      have hpp : (pushStack n (setIndentProps n st)).props = (setIndentProps n st).props := rfl
      rw [hpp, setIndentProps_props] at hne
      by_cases hc1 : id = Node.nid n ∧ k = "indent_diff"
      · exact hc1.1 ▸ List.mem_cons_self _ _
      · rw [plookup_cons_ne _ _ _ _ _ _ hc1] at hne
        by_cases hc2 : id = Node.nid n ∧ k = "indent"
        · exact hc2.1 ▸ List.mem_cons_self _ _
        · rw [plookup_cons_ne _ _ _ _ _ _ hc2] at hne
          exact absurd rfl hne
    · exact hd.2 id k hmid

theorem visit_selfids (fuel : Nat) : SelfIds (nodeIdsF fuel) (visit fuel) := by
  intro c s s' h
  cases fuel with
  | zero => simp [visit] at h
  | succ fuel =>
    simp only [nodeIdsF]
    exact List.mem_cons_self _ _

theorem visit_nice (fuel : Nat) : VisitNice (nodeIdsF fuel) (visit fuel) := by
  induction fuel with
  | zero =>
    intro c st
    simp only [visit]
    exact ⟨_, rfl⟩
  | succ fuel ih =>
    intro c st
    have := visitGo_post (nodeIdsF fuel) (visit fuel) ih (visit_selfids fuel) c st
    simpa only [visit, nodeIdsF] using this

/-- C9: the ancestor stack is balanced across every visit.  Each visit
pushes the node before dispatch and pops the identical node afterwards,
so whenever the driver returns normally the stack equals its state before
the call; in particular a whole-tree pass started on an empty stack ends
on an empty stack. -/
theorem claim_C9 (fuel : Nat) (n : Node) (st : Annot) :
    match visit fuel n st with
    | .ok st' => st'.stack = st.stack
    | .error _ => True := by
  have := visit_nice fuel n st
  cases h : visit fuel n st with
  | error e => exact trivial
  | ok st' =>
    rw [h] at this
    exact this.1

/-- C6: every lower-level inconsistency raised while annotating a node
is normalized into the single annotation-failure kind at the driver
boundary: the except clause turns each of the caught lower-level kinds
(TypeError, ValueError, IndexError including the internal indexing faults
of indented, KeyError) into an AnnotationError carrying the same message,
and every failing run of the driver surfaces as an AnnotationError --
never as a different kind -- with no annotated state returned alongside
the failure. -/
theorem claim_C6 :
    (∀ m, normalizeErr (.typeError m) = .annotationError m ∧
        normalizeErr (.valueError m) = .annotationError m ∧
        normalizeErr (.indexError m) = .annotationError m ∧
        normalizeErr (.keyError m) = .annotationError m) ∧
    (∀ fuel (n : Node) (st : Annot),
      match visit fuel n st with
      | .ok _ => True
      | .error e => ∃ m, e = .annotationError m) := by
  refine ⟨fun m => ⟨rfl, rfl, rfl, rfl⟩, ?_⟩
  intro fuel n st
  have := visit_nice fuel n st
  cases h : visit fuel n st with
  | error e =>
    rw [h] at this
    exact this
  | ok st' => exact trivial

